import Mathlib

/-!
Verification of the sound core of Genesis-Plus-GX (`core/sound/sound.c`).

The file shallowly embeds the module's global state and its operations:
`fm_update`, `sound_init`, `sound_reset`, `sound_update`,
`sound_context_save` / `sound_context_load`, `fm_write`, `fm_read`.

Modelling conventions:
* The C module's `static` globals become the fields of a `SndState` record,
  threaded explicitly through every operation.
* `unsigned int` cycle counters are modelled as `Nat`: every quantity the
  source manipulates here stays far below `2^32` (cycles within one frame,
  ratios 42/1008/1080), so no wrap-around arithmetic is reachable and the
  guarded subtractions of the source coincide with truncated `Nat`
  subtraction.
* The FM chip backends (YM2612 / Nuked OPN2 / YM2413) and the PSG are
  external collaborators compiled from other files; following the spec's
  capability interfaces they are modelled as records of pure functions over
  an abstract chip-state type (`Chip`, `Psg`).  `YM_Update(buf, n)` becomes
  `Chip.update : sigma -> Nat -> List Int x sigma`, producing the `2*n`
  interleaved ints it writes plus its successor state.
* The blip resampler is external; calls to `blip_add_delta` /
  `blip_add_delta_fast` are recorded in an output trace (`BlipDelta`),
  tagged with which entry point was invoked.
* `int` sample arithmetic uses `Int`, with C's truncating division
  rendered as `Int.tdiv`.
* The static array `fm_buffer` is a `List Int` holding the array contents;
  writes overwrite in place at the write offset `fm_ptr` (extending the
  list when needed), and reads past the freshly written region — which the
  source can perform — see whatever the list holds there, defaulting to 0.
-/

/-- One recorded call to the resampler: `hq = true` for `blip_add_delta`
(band-limited), `false` for `blip_add_delta_fast` (linear). -/
structure BlipDelta where
  hq : Bool
  time : Nat
  dl : Int
  dr : Int
deriving DecidableEq

/-- Abstract FM backend capability set (`YM_Reset`/`YM_Update`/`YM_Write`/
`YM_Read` function pointers of the source; the chip implementations live
outside this file's source). `update s n` yields the `2*n` interleaved
stereo ints the chip writes into the buffer, together with its next state. -/
structure Chip (σ : Type) where
  reset : σ → σ
  update : σ → Nat → List Int × σ
  write : σ → Nat → Nat → σ
  read : σ → Nat → Nat

/-- Abstract PSG capability set (`psg_end_frame`, `psg_reset`+`psg_config`). -/
structure Psg (π : Type) where
  reset : π → π
  end_frame : π → Nat → π

/-- The module-level mutable state of `sound.c`: the FM output buffer and
its write offset (`fm_ptr - fm_buffer`, counted in ints), the carry values
`fm_last[0..1]`, the clock ratio, and the two cycle counters, plus the
states of the two external chips. -/
structure SndState (σ π : Type) where
  chip : σ
  psg : π
  fm_buffer : List Int
  fm_ptr : Nat
  fm_last0 : Int
  fm_last1 : Int
  fm_cycles_ratio : Nat
  fm_cycles_start : Nat
  fm_cycles_count : Nat
deriving DecidableEq

/-- Overwrite `buf` starting at index `pos` with `vals`, zero-padding if
`pos` is past the end (models `YM_Update` writing through `fm_ptr` into the
static `fm_buffer` array). -/
def writeAt (buf : List Int) (pos : Nat) (vals : List Int) : List Int :=
  buf.take pos ++ List.replicate (pos - buf.length) 0 ++ vals ++ buf.drop (pos + vals.length)

/-- `fm_update(cycles)` of the source: when `cycles > fm_cycles_count`,
request `(cycles - fm_cycles_count + fm_cycles_ratio - 1) / fm_cycles_ratio`
samples from the backend, advance `fm_ptr` by twice that, and advance
`fm_cycles_count` by that many ratios. -/
def fm_update {σ π : Type} (C : Chip σ) (cycles : Nat) (s : SndState σ π) : SndState σ π :=
  if s.fm_cycles_count < cycles then
    let samples := (cycles - s.fm_cycles_count + s.fm_cycles_ratio - 1) / s.fm_cycles_ratio
    let out := C.update s.chip samples
    { s with
      chip := out.2
      fm_buffer := writeAt s.fm_buffer s.fm_ptr out.1
      fm_ptr := s.fm_ptr + 2 * samples
      fm_cycles_count := s.fm_cycles_count + samples * s.fm_cycles_ratio }
  else
    s

/-- `fm_write(cycles, address, data)`: synchronize, then write the register. -/
def fm_write {σ π : Type} (C : Chip σ) (cycles address data : Nat) (s : SndState σ π) :
    SndState σ π :=
  let s1 := fm_update C cycles s
  { s1 with chip := C.write s1.chip address data }

/-- `fm_read(cycles, address)`: synchronize, then read the status register. -/
def fm_read {σ π : Type} (C : Chip σ) (cycles address : Nat) (s : SndState σ π) :
    Nat × SndState σ π :=
  let s1 := fm_update C cycles s
  (C.read s1.chip address, s1)

/-- `sound_reset()`: reset both chips (the PSG reset also covers the
`psg_config` call), clear the carry values, rewind the buffer pointer and
zero both cycle counters. -/
def sound_reset {σ π : Type} (C : Chip σ) (P : Psg π) (s : SndState σ π) : SndState σ π :=
  { s with
    chip := C.reset s.chip
    psg := P.reset s.psg
    fm_last0 := 0
    fm_last1 := 0
    fm_ptr := 0
    fm_cycles_start := 0
    fm_cycles_count := 0 }

/-- The source's inline per-channel computation
`l = ((*ptr++ * preamp) / 100)`: the amplified channel value at buffer
index `idx`, with C truncating division rendered as `Int.tdiv`. -/
def ampAt (preamp : Int) (buf : List Int) (idx : Nat) : Int :=
  Int.tdiv (buf.getD idx 0 * preamp) 100

/-- The band-limited flush loop of `sound_update` (the `config.hq_fm`
branch): a do-while walk over the sample buffer submitting one
`blip_add_delta` call per iteration, until the running timestamp reaches
`cycles`.  `fuel` bounds the recursion; `sound_update` supplies
`cycles + 1`, which is ample for every positive ratio. -/
def flushHQ (preamp : Int) (ratio cycles : Nat) (buf : List Int) :
    Nat → Nat → Nat → Int → Int → List BlipDelta × Nat × Int × Int
  | 0, _, time, pl, pr => ([], time, pl, pr)
  | fuel+1, i, time, pl, pr =>
    let l := ampAt preamp buf i
    let r := ampAt preamp buf (i+1)
    let t2 := time + ratio
    if t2 < cycles then
      let rest := flushHQ preamp ratio cycles buf fuel (i+2) t2 l r
      (⟨true, time, l - pl, r - pr⟩ :: rest.1, rest.2)
    else
      ([⟨true, time, l - pl, r - pr⟩], t2, l, r)

/-- The linear-interpolation flush loop of `sound_update` (the `else`
branch): identical walk, submitting `blip_add_delta_fast` instead. -/
def flushLQ (preamp : Int) (ratio cycles : Nat) (buf : List Int) :
    Nat → Nat → Nat → Int → Int → List BlipDelta × Nat × Int × Int
  | 0, _, time, pl, pr => ([], time, pl, pr)
  | fuel+1, i, time, pl, pr =>
    let l := ampAt preamp buf i
    let r := ampAt preamp buf (i+1)
    let t2 := time + ratio
    if t2 < cycles then
      let rest := flushLQ preamp ratio cycles buf fuel (i+2) t2 l r
      (⟨false, time, l - pl, r - pr⟩ :: rest.1, rest.2)
    else
      ([⟨false, time, l - pl, r - pr⟩], t2, l, r)

/-- `sound_update(cycles)`: run the PSG to end of frame, top up the FM
buffer via `fm_update`, flush the buffer into resampler deltas (band-limited
or linear according to `hq`), then rewind the buffer pointer, store the
carry, and rebase both cycle counters to `time - cycles`.  Returns the
trace of resampler calls next to the new state (the `blip_end_frame` /
`blip_samples_avail` calls touch only external resampler state). -/
def sound_update {σ π : Type} (C : Chip σ) (P : Psg π) (hq : Bool) (preamp : Int)
    (cycles : Nat) (s : SndState σ π) : List BlipDelta × SndState σ π :=
  let s2 := fm_update C cycles { s with psg := P.end_frame s.psg cycles }
  let res :=
    if hq then
      flushHQ preamp s2.fm_cycles_ratio cycles s2.fm_buffer (cycles + 1) 0
        s2.fm_cycles_start s2.fm_last0 s2.fm_last1
    else
      flushLQ preamp s2.fm_cycles_ratio cycles s2.fm_buffer (cycles + 1) 0
        s2.fm_cycles_start s2.fm_last0 s2.fm_last1
  (res.1,
   { s2 with
     fm_ptr := 0
     fm_last0 := res.2.2.1
     fm_last1 := res.2.2.2
     fm_cycles_count := res.2.1 - cycles
     fm_cycles_start := res.2.1 - cycles })

/-- Persisted context, in the order `sound_context_save` emits it: backend
mode discriminator (`config.ym3438`, when the dual-FM build applies),
backend chip state, PSG state, `fm_cycles_start`.  The byte-level
`save_param` copies are external; the record keeps the field order. -/
structure SavedContext (σ π : Type) where
  ym3438 : Bool
  chip : σ
  psg : π
  fm_cycles_start : Nat
deriving DecidableEq

/-- `sound_context_save(state)`: emit discriminator, chip state, PSG state,
then `fm_cycles_start` (the chip serializers are external and modelled as
exact state capture). -/
def sound_context_save {σ π : Type} (cfg_ym3438 : Bool) (s : SndState σ π) :
    SavedContext σ π :=
  ⟨cfg_ym3438, s.chip, s.psg, s.fm_cycles_start⟩

/-- `sound_context_load(state)`: restore, in order, the discriminator, the
chip state, the PSG state and `fm_cycles_start`, then set
`fm_cycles_count = fm_cycles_start`.  Nothing else is touched. -/
def sound_context_load {σ π : Type} (ctx : SavedContext σ π) (s : SndState σ π) :
    SndState σ π :=
  { s with
    chip := ctx.chip
    psg := ctx.psg
    fm_cycles_start := ctx.fm_cycles_start
    fm_cycles_count := ctx.fm_cycles_start }

/-- Modelled from the spec: the console hardware classes distinguished by
`sound_init` — the `system_hw` constants (`SYSTEM_MD`, `SYSTEM_PBC`,
`SYSTEM_SG` masks of `shared.h`) are outside this file's source, and the
spec describes a closed three-valued hardware class: the Mega Drive family
(`(system_hw & SYSTEM_PBC) == SYSTEM_MD`), the SG-1000, and the remaining
(Master System / Game Gear) family. -/
inductive HwClass where
  | md
  | sg
  | other
deriving DecidableEq

/-- The three FM engine variants `sound_init` can bind. -/
inductive FMVariant where
  | nuked
  | mame
  | ym2413
deriving DecidableEq

/-- PSG operating mode passed to `psg_init`. -/
inductive PsgMode where
  | discrete
  | integrated
deriving DecidableEq

/-- Outcome of `sound_init`: the bound FM variant, its clock ratio, whether
the bound `YM_Read` entry point is non-NULL, and the PSG mode.  Binding the
variant stands for binding that variant's reset/update/write/read function
pointers; the chip `Init` routines themselves are external. -/
structure BackendSel where
  variant : FMVariant
  fm_cycles_ratio : Nat
  has_read : Bool
  psg_mode : PsgMode
deriving DecidableEq

/-- `sound_init()`: on the Mega Drive family pick Nuked OPN2 (ratio `6*7`)
when the `config.ym3438` preference is set, else the MAME YM2612 (ratio
`144*7`); elsewhere pick the YM2413 (ratio `72*15`, `YM_Read = NULL`).
`psg_init` gets `PSG_DISCRETE` exactly on SG-1000 hardware. -/
def sound_init (hw : HwClass) (ym3438_pref : Bool) : BackendSel :=
  if hw = HwClass.md then
    if ym3438_pref then
      ⟨FMVariant.nuked, 6 * 7, true, PsgMode.integrated⟩
    else
      ⟨FMVariant.mame, 144 * 7, true, PsgMode.integrated⟩
  else
    ⟨FMVariant.ym2413, 72 * 15, false,
      if hw = HwClass.sg then PsgMode.discrete else PsgMode.integrated⟩

/-! ## Ceiling division

`fm_update` computes the number of owed samples as
`(delta + ratio - 1) / ratio`; `ceil_div` names that expression so the
theorems can relate it to the mathematical ceiling of `delta / ratio`. -/

/-- Ceiling division on naturals, written exactly as the source computes it. -/
def ceil_div (a b : Nat) : Nat := (a + b - 1) / b

/-- Iteration count of the flush do-while entered at timestamp `time`: at
least one, and enough to push the timestamp to `cycles` or beyond. -/
def iters (ratio cycles time : Nat) : Nat := max 1 (ceil_div (cycles - time) ratio)

/-- The element the flush loop submits at relative iteration `j`, when the
walk starts at buffer index `i`, timestamp `time`, carry `pl`/`pr`. -/
def flushElem (entry : Bool) (preamp : Int) (ratio : Nat) (buf : List Int)
    (i time : Nat) (pl pr : Int) (j : Nat) : BlipDelta :=
  { hq := entry
    time := time + j * ratio
    dl := ampAt preamp buf (i + 2*j) -
            (if j = 0 then pl else ampAt preamp buf (i + 2*j - 2))
    dr := ampAt preamp buf (i + 2*j + 1) -
            (if j = 0 then pr else ampAt preamp buf (i + 2*j - 1)) }

/-- One operation of the core's mutating interface (everything that can
touch the cycle counters after reset, besides a further reset). -/
inductive SoundOp (σ π : Type) where
  | fmUpd (cycles : Nat)
  | fmWr (cycles address data : Nat)
  | fmRd (cycles address : Nat)
  | sndUpd (hq : Bool) (preamp : Int) (cycles : Nat)
  | ctxLoad (ctx : SavedContext σ π)

/-- Apply one operation to the state (discarding read values / traces). -/
def soundStep {σ π : Type} (C : Chip σ) (P : Psg π) (s : SndState σ π) :
    SoundOp σ π → SndState σ π
  | SoundOp.fmUpd c => fm_update C c s
  | SoundOp.fmWr c a d => fm_write C c a d s
  | SoundOp.fmRd c a => (fm_read C c a s).2
  | SoundOp.sndUpd hq p c => (sound_update C P hq p c s).2
  | SoundOp.ctxLoad ctx => sound_context_load ctx s

/-- Run a whole sequence of operations. -/
def soundRun {σ π : Type} (C : Chip σ) (P : Psg π) (ops : List (SoundOp σ π))
    (s : SndState σ π) : SndState σ π :=
  ops.foldl (soundStep C P) s

/-- The cycle-counter invariant: `fm_cycles_count - fm_cycles_start` is a
non-negative multiple of `fm_cycles_ratio`. -/
def CounterInv {σ π : Type} (s : SndState σ π) : Prop :=
  s.fm_cycles_start ≤ s.fm_cycles_count ∧
  s.fm_cycles_ratio ∣ (s.fm_cycles_count - s.fm_cycles_start)

/-- A sequence of `fm_update` calls with the given cycle targets. -/
def fm_update_seq {σ π : Type} (C : Chip σ) (targets : List Nat) (s : SndState σ π) :
    SndState σ π :=
  targets.foldl (fun t c => fm_update C c t) s

/-- Run a sequence of whole frames through `sound_update`, concatenating
the emitted resampler traces. -/
def runFrames {σ π : Type} (C : Chip σ) (P : Psg π) (hq : Bool) (preamp : Int) :
    List Nat → SndState σ π → List BlipDelta × SndState σ π
  | [], s => ([], s)
  | c :: cs, s =>
    let r := sound_update C P hq preamp c s
    let rest := runFrames C P hq preamp cs r.2
    (r.1 ++ rest.1, rest.2)

/-- Chained non-degeneracy of a frame sequence: every frame advances past
the residual `fm_cycles_start` left by its predecessor. -/
def NonDegen {σ π : Type} (C : Chip σ) (P : Psg π) (hq : Bool) (preamp : Int) :
    List Nat → SndState σ π → Prop
  | [], _ => True
  | c :: cs, s =>
    s.fm_cycles_start < c ∧ NonDegen C P hq preamp cs (sound_update C P hq preamp c s).2

/-- Equality of two states on every field except the buffer contents. -/
def ExtEq {σ π : Type} (s₁ s₂ : SndState σ π) : Prop :=
  s₁.chip = s₂.chip ∧ s₁.psg = s₂.psg ∧ s₁.fm_ptr = s₂.fm_ptr ∧
  s₁.fm_last0 = s₂.fm_last0 ∧ s₁.fm_last1 = s₂.fm_last1 ∧
  s₁.fm_cycles_ratio = s₂.fm_cycles_ratio ∧
  s₁.fm_cycles_start = s₂.fm_cycles_start ∧
  s₁.fm_cycles_count = s₂.fm_cycles_count

/-- A concrete backend for witnesses: a chip that emits the constant sample
value 100 on both channels of every generated sample. -/
def constChip : Chip Unit where
  reset := fun u => u
  update := fun _ n => (List.replicate (2*n) 100, ())
  write := fun u _ _ => u
  read := fun _ _ => 0

/-- A concrete PSG for witnesses. -/
def idPsg : Psg Unit where
  reset := fun u => u
  end_frame := fun u _ => u

/-- The all-zero reset state with the standard-chip ratio `1008`. -/
def mdResetState : SndState Unit Unit :=
  ⟨(), (), [], 0, 0, 0, 1008, 0, 0⟩

/-- A frame-boundary state whose buffer is empty (nothing produced since
the pointer rewind) but still holds stale data from an earlier frame. -/
def staleState : SndState Unit Unit :=
  ⟨(), (), [7, 9], 0, 0, 0, 1008, 500, 500⟩

theorem ceil_div_le_of_le_mul {a b k : Nat} (hb : 0 < b) (h : a ≤ b * k) :
    ceil_div a b ≤ k := by
  unfold ceil_div
  have h1 : a + b - 1 ≤ b * k + (b - 1) := by omega
  calc (a + b - 1) / b ≤ (b * k + (b - 1)) / b := Nat.div_le_div_right h1
    _ = (b - 1 + b * k) / b := by ring_nf
    _ = (b - 1) / b + k := Nat.add_mul_div_left _ _ hb
    _ = k := by rw [Nat.div_eq_of_lt (by omega), Nat.zero_add]

theorem le_mul_ceil_div {a b : Nat} (hb : 0 < b) : a ≤ b * ceil_div a b := by
  unfold ceil_div
  rcases Nat.eq_zero_or_pos a with ha | ha
  · simp [ha]
  · have h1 : a + b - 1 = (a - 1) + b := by omega
    rw [h1, Nat.add_div_right _ hb, Nat.mul_add, Nat.mul_one]
    have h2 : b * ((a - 1) / b) + (a - 1) % b = a - 1 := Nat.div_add_mod _ _
    have h3 : (a - 1) % b < b := Nat.mod_lt _ hb
    omega

theorem ceil_div_pred_mul_lt {a b : Nat} (hb : 0 < b) (ha : 0 < a) :
    (ceil_div a b - 1) * b < a := by
  unfold ceil_div
  have h1 : a + b - 1 = (a - 1) + b := by omega
  rw [h1, Nat.add_div_right _ hb]
  simp only [Nat.add_sub_cancel]
  have h2 : (a - 1) / b * b ≤ a - 1 := Nat.div_mul_le_self _ _
  omega

theorem ceil_div_mul (b k : Nat) (hb : 0 < b) : ceil_div (b * k) b = k := by
  apply Nat.le_antisymm
  · exact ceil_div_le_of_le_mul hb (Nat.le_refl _)
  · by_contra h
    have h1 : ceil_div (b * k) b + 1 ≤ k := by omega
    rcases Nat.eq_zero_or_pos k with hk | hk
    · omega
    · have h2 := ceil_div_pred_mul_lt hb (show 0 < b * k by positivity)
      have h3 : b * k ≤ b * ceil_div (b * k) b := le_mul_ceil_div hb
      nlinarith

theorem ceil_div_mono {a a' : Nat} (b : Nat) (h : a ≤ a') :
    ceil_div a b ≤ ceil_div a' b :=
  Nat.div_le_div_right (by omega)

theorem ceil_div_add_mul {a b k : Nat} (hb : 0 < b) (h : b * k < a) :
    ceil_div a b = k + ceil_div (a - b * k) b := by
  unfold ceil_div
  have h1 : a + b - 1 = (a - b * k + b - 1) + b * k := by omega
  rw [h1, Nat.add_mul_div_left _ _ hb]
  omega

theorem ceil_div_sub_base {a b : Nat} (hb : 0 < b) (h : b < a) :
    ceil_div (a - b) b = ceil_div a b - 1 := by
  have h1 : ceil_div a b = 1 + ceil_div (a - b * 1) b := ceil_div_add_mul hb (by omega)
  simp only [Nat.mul_one] at h1
  omega

theorem ceil_div_pos {a b : Nat} (hb : 0 < b) (ha : 0 < a) : 0 < ceil_div a b := by
  by_contra h
  have h1 : a ≤ b * ceil_div a b := le_mul_ceil_div hb
  have h0 : ceil_div a b = 0 := by omega
  rw [h0, Nat.mul_zero] at h1
  omega

theorem ceil_div_zero (b : Nat) (hb : 0 < b) : ceil_div 0 b = 0 := by
  unfold ceil_div
  exact Nat.div_eq_of_lt (by omega)

theorem ceil_div_le_self {a b : Nat} (hb : 0 < b) : ceil_div a b ≤ a := by
  rcases Nat.eq_zero_or_pos a with ha | ha
  · rw [ha, ceil_div_zero b hb]
  · exact ceil_div_le_of_le_mul hb (Nat.le_mul_of_pos_left a hb)

/-! ## Closed form of the flush loop

The do-while of `sound_update` always runs at least once and then keeps
going while the running timestamp stays below `cycles`; `iters` is the
resulting iteration count, and `flushHQ_closed` exposes the whole loop as a
map over `List.range (iters ...)`. -/

theorem iters_pos (ratio cycles time : Nat) : 1 ≤ iters ratio cycles time :=
  Nat.le_max_left _ _

theorem iters_base {ratio cycles time : Nat} (hr : 0 < ratio) (hc : cycles ≤ time + ratio) :
    iters ratio cycles time = 1 := by
  unfold iters
  have h1 : ceil_div (cycles - time) ratio ≤ 1 := by
    apply ceil_div_le_of_le_mul hr
    omega
  omega

theorem iters_rec {ratio cycles time : Nat} (hr : 0 < ratio) (hc : time + ratio < cycles) :
    iters ratio cycles time = iters ratio cycles (time + ratio) + 1 := by
  unfold iters
  have h1 : ratio < cycles - time := by omega
  have h2 : cycles - (time + ratio) = (cycles - time) - ratio := by omega
  rw [h2, ceil_div_sub_base hr h1]
  have h5 : 2 ≤ ceil_div (cycles - time) ratio := by
    unfold ceil_div
    have h6 : ratio * 2 / ratio ≤ (cycles - time + ratio - 1) / ratio :=
      Nat.div_le_div_right (by omega)
    rw [Nat.mul_div_cancel_left 2 hr] at h6
    exact h6
  omega

theorem flushElem_shift (entry : Bool) (preamp : Int) (ratio : Nat) (buf : List Int)
    (i time : Nat) (pl pr : Int) (j : Nat) :
    flushElem entry preamp ratio buf (i+2) (time+ratio)
        (ampAt preamp buf i) (ampAt preamp buf (i+1)) j =
      flushElem entry preamp ratio buf i time pl pr (j+1) := by
  unfold flushElem
  congr 1
  · ring
  · rw [if_neg (by omega : ¬(j + 1 = 0))]
    congr 1
    · exact congrArg _ (by omega)
    · split_ifs with hj
      · subst hj
        exact congrArg _ (by omega)
      · exact congrArg _ (by omega)
  · rw [if_neg (by omega : ¬(j + 1 = 0))]
    congr 1
    · exact congrArg _ (by omega)
    · split_ifs with hj
      · subst hj
        exact congrArg _ (by omega)
      · exact congrArg _ (by omega)

theorem flushHQ_closed (preamp : Int) (ratio cycles : Nat) (buf : List Int)
    (hr : 0 < ratio) :
    ∀ (fuel i time : Nat) (pl pr : Int), 1 ≤ fuel → cycles ≤ time + fuel * ratio →
      flushHQ preamp ratio cycles buf fuel i time pl pr =
        ((List.range (iters ratio cycles time)).map
            (flushElem true preamp ratio buf i time pl pr),
         time + iters ratio cycles time * ratio,
         ampAt preamp buf (i + 2*(iters ratio cycles time - 1)),
         ampAt preamp buf (i + 2*(iters ratio cycles time - 1) + 1)) := by
  intro fuel
  induction fuel with
  | zero => intro i time pl pr h1 _; exact absurd h1 (by omega)
  | succ n ih =>
    intro i time pl pr _ h2
    by_cases hc : time + ratio < cycles
    · -- the loop recurses: at least two iterations remain
      rcases Nat.eq_zero_or_pos n with hn | hn
      · subst hn
        simp only [Nat.zero_add, Nat.one_mul] at h2
        omega
      · have h2' : cycles ≤ (time + ratio) + n * ratio := by
          have hx : time + (n+1) * ratio = time + ratio + n * ratio := by ring
          omega
        have ihx := ih (i+2) (time+ratio) (ampAt preamp buf i) (ampAt preamp buf (i+1))
          hn h2'
        have hk := iters_rec hr hc
        have hk1 := iters_pos ratio cycles (time + ratio)
        simp only [flushHQ, if_pos hc]
        rw [ihx, hk]
        refine Prod.ext ?_ (Prod.ext ?_ (Prod.ext ?_ ?_)) <;> simp only
        · -- trace component
          rw [List.range_succ_eq_map, List.map_cons, List.map_map]
          refine congrArg₂ List.cons ?_ ?_
          · simp [flushElem]
          · refine List.map_congr_left ?_
            intro j _
            simpa only [Function.comp_apply, Nat.succ_eq_add_one] using
              flushElem_shift true preamp ratio buf i time pl pr j
        · ring
        · exact congrArg (ampAt preamp buf) (by omega)
        · exact congrArg (ampAt preamp buf) (by omega)
    · -- the loop exits after this iteration
      have hk : iters ratio cycles time = 1 := iters_base hr (by omega)
      simp [flushHQ, if_neg hc, hk, flushElem, List.range_succ]

/-- The linear branch performs the identical walk; its result is the
band-limited branch's result with every trace element retagged. -/
theorem flushLQ_eq_retag (preamp : Int) (ratio cycles : Nat) (buf : List Int) :
    ∀ (fuel i time : Nat) (pl pr : Int),
      flushLQ preamp ratio cycles buf fuel i time pl pr =
        ((flushHQ preamp ratio cycles buf fuel i time pl pr).1.map
            (fun d => { d with hq := false }),
         (flushHQ preamp ratio cycles buf fuel i time pl pr).2) := by
  intro fuel
  induction fuel with
  | zero => intro i time pl pr; simp [flushHQ, flushLQ]
  | succ n ih =>
    intro i time pl pr
    simp only [flushHQ, flushLQ]
    by_cases hc : time + ratio < cycles
    · simp only [if_pos hc, ih, List.map_cons]
    · simp only [if_neg hc, List.map_cons, List.map_nil]

theorem flushElem_retag (preamp : Int) (ratio : Nat) (buf : List Int)
    (i time : Nat) (pl pr : Int) (j : Nat) :
    { flushElem true preamp ratio buf i time pl pr j with hq := false } =
      flushElem false preamp ratio buf i time pl pr j := rfl

theorem fm_update_ratio {σ π : Type} (C : Chip σ) (cycles : Nat) (s : SndState σ π) :
    (fm_update C cycles s).fm_cycles_ratio = s.fm_cycles_ratio := by
  unfold fm_update; split <;> rfl

theorem fm_update_start {σ π : Type} (C : Chip σ) (cycles : Nat) (s : SndState σ π) :
    (fm_update C cycles s).fm_cycles_start = s.fm_cycles_start := by
  unfold fm_update; split <;> rfl

theorem fm_update_last0 {σ π : Type} (C : Chip σ) (cycles : Nat) (s : SndState σ π) :
    (fm_update C cycles s).fm_last0 = s.fm_last0 := by
  unfold fm_update; split <;> rfl

theorem fm_update_last1 {σ π : Type} (C : Chip σ) (cycles : Nat) (s : SndState σ π) :
    (fm_update C cycles s).fm_last1 = s.fm_last1 := by
  unfold fm_update; split <;> rfl

theorem fm_update_psg {σ π : Type} (C : Chip σ) (cycles : Nat) (s : SndState σ π) :
    (fm_update C cycles s).psg = s.psg := by
  unfold fm_update; split <;> rfl

theorem fm_update_count_le {σ π : Type} (C : Chip σ) (cycles : Nat) (s : SndState σ π) :
    s.fm_cycles_count ≤ (fm_update C cycles s).fm_cycles_count := by
  unfold fm_update
  split <;> simp

/-- Closed form of `sound_update` for a positive clock ratio: writing `k`
for the number of loop iterations and `s2` for the post-`fm_update` state,
the call returns the trace of `k` deltas starting at `fm_cycles_start` and
the state with the buffer pointer rewound, the carry set to the last
amplified pair the loop read, and both counters rebased to
`fm_cycles_start + k * ratio - cycles`. -/
theorem sound_update_closed {σ π : Type} (C : Chip σ) (P : Psg π) (hq : Bool)
    (preamp : Int) (cycles : Nat) (s : SndState σ π) (hr : 0 < s.fm_cycles_ratio) :
    sound_update C P hq preamp cycles s =
      ((List.range (iters s.fm_cycles_ratio cycles s.fm_cycles_start)).map
          (flushElem hq preamp s.fm_cycles_ratio
            (fm_update C cycles { s with psg := P.end_frame s.psg cycles }).fm_buffer
            0 s.fm_cycles_start s.fm_last0 s.fm_last1),
       { fm_update C cycles { s with psg := P.end_frame s.psg cycles } with
         fm_ptr := 0
         fm_last0 := ampAt preamp
           (fm_update C cycles { s with psg := P.end_frame s.psg cycles }).fm_buffer
           (2 * (iters s.fm_cycles_ratio cycles s.fm_cycles_start - 1))
         fm_last1 := ampAt preamp
           (fm_update C cycles { s with psg := P.end_frame s.psg cycles }).fm_buffer
           (2 * (iters s.fm_cycles_ratio cycles s.fm_cycles_start - 1) + 1)
         fm_cycles_count :=
           s.fm_cycles_start + iters s.fm_cycles_ratio cycles s.fm_cycles_start *
             s.fm_cycles_ratio - cycles
         fm_cycles_start :=
           s.fm_cycles_start + iters s.fm_cycles_ratio cycles s.fm_cycles_start *
             s.fm_cycles_ratio - cycles }) := by
  have h1 := fm_update_ratio C cycles { s with psg := P.end_frame s.psg cycles }
  have h2 := fm_update_start C cycles { s with psg := P.end_frame s.psg cycles }
  have h3 := fm_update_last0 C cycles { s with psg := P.end_frame s.psg cycles }
  have h4 := fm_update_last1 C cycles { s with psg := P.end_frame s.psg cycles }
  have hsf : ({ s with psg := P.end_frame s.psg cycles } :
      SndState σ π).fm_cycles_ratio = s.fm_cycles_ratio := rfl
  have hss : ({ s with psg := P.end_frame s.psg cycles } :
      SndState σ π).fm_cycles_start = s.fm_cycles_start := rfl
  rw [hsf] at h1
  rw [hss] at h2
  have hmul : cycles + 1 ≤ (cycles + 1) * s.fm_cycles_ratio :=
    Nat.le_mul_of_pos_right _ hr
  have hfuel : cycles ≤
      (fm_update C cycles { s with psg := P.end_frame s.psg cycles }).fm_cycles_start +
        (cycles + 1) *
          (fm_update C cycles { s with psg := P.end_frame s.psg cycles }).fm_cycles_ratio := by
    rw [h1, h2]
    omega
  have hr2 : 0 <
      (fm_update C cycles { s with psg := P.end_frame s.psg cycles }).fm_cycles_ratio := by
    rw [h1]; exact hr
  cases hq with
  | true =>
    simp only [sound_update, if_pos rfl]
    rw [flushHQ_closed _ _ _ _ hr2 (cycles + 1) 0 _ _ _ (by omega) hfuel]
    simp only [h1, h2, h3, h4, Nat.zero_add, eq_self_iff_true, if_true]
  | false =>
    simp only [sound_update, Bool.false_eq_true, if_false]
    rw [flushLQ_eq_retag, flushHQ_closed _ _ _ _ hr2 (cycles + 1) 0 _ _ _ (by omega) hfuel]
    simp only [h1, h2, h3, h4, Nat.zero_add, List.map_map]
    refine Prod.ext ?_ ?_
    · simp only
      refine List.map_congr_left ?_
      intro j _
      exact flushElem_retag _ _ _ _ _ _ _ _
    · rfl

/-- Every delta the band-limited loop emits carries the `blip_add_delta`
tag. -/
theorem flushHQ_tags (preamp : Int) (ratio cycles : Nat) (buf : List Int) :
    ∀ (fuel i time : Nat) (pl pr : Int),
      ∀ d ∈ (flushHQ preamp ratio cycles buf fuel i time pl pr).1, d.hq = true := by
  intro fuel
  induction fuel with
  | zero => intro i time pl pr d hd; simp [flushHQ] at hd
  | succ n ih =>
    intro i time pl pr d hd
    simp only [flushHQ] at hd
    by_cases hc : time + ratio < cycles
    · rw [if_pos hc] at hd
      simp only [List.mem_cons] at hd
      rcases hd with hd | hd
      · rw [hd]
      · exact ih _ _ _ _ d hd
    · rw [if_neg hc] at hd
      simp only [List.mem_singleton] at hd
      rw [hd]

/-- Ratchet step: if the counter sits at the ceiling multiple for an
already-reached target `m` and the write offset matches, then after
`fm_update c` with `c ≥ m` they sit at the ceiling multiple for `c`. -/
theorem fm_update_ratchet {σ π : Type} (C : Chip σ) {c m : Nat} (s : SndState σ π)
    (hr : 0 < s.fm_cycles_ratio) (hm : m ≤ c)
    (hcount : s.fm_cycles_count =
      ceil_div m s.fm_cycles_ratio * s.fm_cycles_ratio)
    (hptr : s.fm_ptr = 2 * ceil_div m s.fm_cycles_ratio) :
    (fm_update C c s).fm_cycles_count =
        ceil_div c s.fm_cycles_ratio * s.fm_cycles_ratio ∧
    (fm_update C c s).fm_ptr = 2 * ceil_div c s.fm_cycles_ratio := by
  by_cases h : s.fm_cycles_count < c
  · have hlt : s.fm_cycles_ratio * ceil_div m s.fm_cycles_ratio < c := by
      rw [Nat.mul_comm]; omega
    have hkey : ceil_div c s.fm_cycles_ratio =
        ceil_div m s.fm_cycles_ratio +
          ceil_div (c - s.fm_cycles_ratio * ceil_div m s.fm_cycles_ratio)
            s.fm_cycles_ratio :=
      ceil_div_add_mul hr hlt
    have harg : c - s.fm_cycles_ratio * ceil_div m s.fm_cycles_ratio =
        c - s.fm_cycles_count := by
      rw [hcount, Nat.mul_comm]
    unfold fm_update
    rw [if_pos h]
    simp only
    have hsamp : (c - s.fm_cycles_count + s.fm_cycles_ratio - 1) / s.fm_cycles_ratio =
        ceil_div (c - s.fm_cycles_count) s.fm_cycles_ratio := rfl
    rw [hsamp]
    constructor
    · rw [hkey, Nat.add_mul, harg, ← hcount]
    · rw [hptr, hkey, harg]
      ring
  · have hle : ceil_div c s.fm_cycles_ratio = ceil_div m s.fm_cycles_ratio := by
      apply Nat.le_antisymm
      · apply ceil_div_le_of_le_mul hr
        rw [Nat.mul_comm]
        omega
      · exact ceil_div_mono _ hm
    unfold fm_update
    rw [if_neg h, hle]
    exact ⟨hcount, hptr⟩

/-- Folding a monotone chain of targets through `fm_update` keeps the
counter at the ceiling multiple of the last target (and the write offset at
twice the owed-sample total). -/
theorem fm_update_seq_aux {σ π : Type} (C : Chip σ) :
    ∀ (targets : List Nat) (m : Nat) (s : SndState σ π),
      0 < s.fm_cycles_ratio →
      List.Chain (· ≤ ·) m targets →
      s.fm_cycles_count = ceil_div m s.fm_cycles_ratio * s.fm_cycles_ratio →
      s.fm_ptr = 2 * ceil_div m s.fm_cycles_ratio →
      (fm_update_seq C targets s).fm_cycles_count =
          ceil_div (targets.getLastD m) s.fm_cycles_ratio * s.fm_cycles_ratio ∧
      (fm_update_seq C targets s).fm_ptr =
          2 * ceil_div (targets.getLastD m) s.fm_cycles_ratio ∧
      (fm_update_seq C targets s).fm_cycles_ratio = s.fm_cycles_ratio := by
  intro targets
  induction targets with
  | nil =>
    intro m s hr _ hcount hptr
    exact ⟨hcount, hptr, rfl⟩
  | cons c rest ih =>
    intro m s hr hchain hcount hptr
    rcases hchain with _ | ⟨hm, hchain⟩
    have hstep := fm_update_ratchet C s hr hm hcount hptr
    have hrat := fm_update_ratio C c s
    have hx := ih c (fm_update C c s) (by rw [hrat]; exact hr)
      (by exact hchain)
      (by rw [hrat, hstep.1]) (by rw [hrat, hstep.2])
    rw [List.getLastD_cons]
    have hseq : fm_update_seq C (c :: rest) s = fm_update_seq C rest (fm_update C c s) := rfl
    rw [hseq]
    rw [hrat] at hx
    exact ⟨hx.1, hx.2.1, hx.2.2⟩

/-- C1: for `fm_update(targetCycles)`: when the target exceeds
`fm_cycles_count`, exactly `owed = ceil((target - count) / ratio)` samples
are requested from the backend's bulk generate entry point (`owed` is both
an upper ceiling witness — `target - count ≤ owed * ratio` — and tight —
`(owed - 1) * ratio < target - count`), the output is written at the
current write position, `fm_ptr` advances by `2 * owed`, and
`fm_cycles_count` advances by `owed * ratio`; when the target does not
exceed `fm_cycles_count`, the state is unchanged. -/
theorem C1_fm_update_owed {σ π : Type} (C : Chip σ) (s : SndState σ π) (cycles : Nat)
    (hr : 0 < s.fm_cycles_ratio) :
    (cycles ≤ s.fm_cycles_count → fm_update C cycles s = s) ∧
    (s.fm_cycles_count < cycles →
      cycles - s.fm_cycles_count ≤
          ceil_div (cycles - s.fm_cycles_count) s.fm_cycles_ratio * s.fm_cycles_ratio ∧
      (ceil_div (cycles - s.fm_cycles_count) s.fm_cycles_ratio - 1) * s.fm_cycles_ratio <
          cycles - s.fm_cycles_count ∧
      fm_update C cycles s =
        { s with
          chip := (C.update s.chip
            (ceil_div (cycles - s.fm_cycles_count) s.fm_cycles_ratio)).2
          fm_buffer := writeAt s.fm_buffer s.fm_ptr
            (C.update s.chip
              (ceil_div (cycles - s.fm_cycles_count) s.fm_cycles_ratio)).1
          fm_ptr := s.fm_ptr +
            2 * ceil_div (cycles - s.fm_cycles_count) s.fm_cycles_ratio
          fm_cycles_count := s.fm_cycles_count +
            ceil_div (cycles - s.fm_cycles_count) s.fm_cycles_ratio *
              s.fm_cycles_ratio }) := by
  constructor
  · intro h
    unfold fm_update
    rw [if_neg (Nat.not_lt.mpr h)]
  · intro h
    refine ⟨?_, ?_, ?_⟩
    · have h5 : cycles - s.fm_cycles_count ≤
          s.fm_cycles_ratio * ceil_div (cycles - s.fm_cycles_count) s.fm_cycles_ratio :=
        le_mul_ceil_div hr
      rw [Nat.mul_comm] at h5
      exact h5
    · exact ceil_div_pred_mul_lt hr (by omega)
    · unfold fm_update
      rw [if_pos h]
      rfl

set_option maxRecDepth 8000 in
/-- C1 witness: from the all-zero 1008-ratio state, `fm_update 50000`
requests exactly 50 samples, writes 100 buffer ints, and advances the
counter to 50400. -/
theorem C1_witness :
    fm_update constChip 50000 mdResetState =
      ⟨(), (), List.replicate 100 (100 : Int), 100, 0, 0, 1008, 0, 50400⟩ := by
  have h := C1_fm_update_owed constChip mdResetState 50000 (by decide)
  exact (((h.2 (by decide)).2.2)).trans (by decide)

/-- C2: starting from the reset state, every non-decreasing sequence of
targets fed to `fm_update` ends with the write offset at
`2 * ceil(cn / ratio)` (so exactly `ceil(cn / ratio)` stereo samples were
requested in total, each appended once) and the produced-through counter at
`ceil(cn / ratio) * ratio` (so the covered cycle spans tile `[0, cn)` with
no overlap and no gap). -/
theorem C2_total_samples {σ π : Type} (C : Chip σ) (P : Psg π) (s : SndState σ π)
    (targets : List Nat) (hr : 0 < s.fm_cycles_ratio)
    (hmono : List.Chain' (· ≤ ·) targets) :
    (fm_update_seq C targets (sound_reset C P s)).fm_ptr =
        2 * ceil_div (targets.getLastD 0) s.fm_cycles_ratio ∧
    (fm_update_seq C targets (sound_reset C P s)).fm_cycles_count =
        ceil_div (targets.getLastD 0) s.fm_cycles_ratio * s.fm_cycles_ratio := by
  have hz : ceil_div 0 (sound_reset C P s).fm_cycles_ratio = 0 := ceil_div_zero _ hr
  have hchain : List.Chain (· ≤ ·) 0 targets := by
    cases targets with
    | nil => exact List.Chain.nil
    | cons a l => exact List.Chain.cons (Nat.zero_le a) hmono
  have h := fm_update_seq_aux C targets 0 (sound_reset C P s) hr hchain
    (by rw [hz, Nat.zero_mul]; rfl) (by rw [hz, Nat.mul_zero]; rfl)
  exact ⟨h.2.1, h.1⟩

/-- C2 witness: targets 1000 ≤ 30000 ≤ 50000 with ratio 1008 yield 50
samples in total (write offset 100, counter 50400). -/
theorem C2_witness :
    (fm_update_seq constChip [1000, 30000, 50000]
        (sound_reset constChip idPsg mdResetState)).fm_ptr = 100 ∧
    (fm_update_seq constChip [1000, 30000, 50000]
        (sound_reset constChip idPsg mdResetState)).fm_cycles_count = 50400 := by
  have h := C2_total_samples constChip idPsg mdResetState [1000, 30000, 50000]
    (by decide)
    (show List.Chain (· ≤ ·) 1000 [30000, 50000] from
      List.Chain.cons (by omega) (List.Chain.cons (by omega) List.Chain.nil))
  exact ⟨h.1.trans (by decide), h.2.trans (by decide)⟩

/-- C5: concrete scenario — ratio 1008, one `sound_update(50000)` from the
all-zero reset state, 100% FM amplification, backend emitting the constant
value 100 on both channels: exactly `ceil(50000/1008) = 50` samples are
generated (trace length 50, `fm_update` write offset `2*50`), the first
submitted delta is `100 - 0 = 100` at timestamp 0 on each channel, every
other submitted delta is 0, and the stored frame-start for the next frame
is `50*1008 - 50000 = 400`. -/
theorem C5_concrete_frame :
    (sound_update constChip idPsg true 100 50000 mdResetState).1.length = 50 ∧
    (sound_update constChip idPsg true 100 50000 mdResetState).1.head? =
      some ⟨true, 0, 100, 100⟩ ∧
    (∀ d ∈ (sound_update constChip idPsg true 100 50000 mdResetState).1.tail,
        d.dl = 0 ∧ d.dr = 0) ∧
    (fm_update constChip 50000 mdResetState).fm_ptr = 2 * 50 ∧
    (sound_update constChip idPsg true 100 50000 mdResetState).2.fm_cycles_start = 400 ∧
    (sound_update constChip idPsg true 100 50000 mdResetState).2.fm_cycles_count = 400 := by
  decide

/-- C9: `sound_init` always succeeds and selects exactly one FM variant
from the hardware class and the preference flag — Nuked OPN2 with ratio
`6*7 = 42` on the Mega Drive family when the flag is set, the MAME YM2612
with ratio `144*7 = 1008` there otherwise, and the YM2413 with ratio
`72*15 = 1080` (no read entry point) on the other console families — and
configures the PSG in discrete mode exactly on SG-1000 hardware (the chip
initialization routines themselves are external power-on resets). -/
theorem C9_sound_init_selection :
    ∀ (hw : HwClass) (pref : Bool),
      ((sound_init hw pref).variant = FMVariant.nuked ↔
        hw = HwClass.md ∧ pref = true) ∧
      ((sound_init hw pref).variant = FMVariant.mame ↔
        hw = HwClass.md ∧ pref = false) ∧
      ((sound_init hw pref).variant = FMVariant.ym2413 ↔ ¬(hw = HwClass.md)) ∧
      ((sound_init hw pref).variant = FMVariant.nuked →
        (sound_init hw pref).fm_cycles_ratio = 42) ∧
      ((sound_init hw pref).variant = FMVariant.mame →
        (sound_init hw pref).fm_cycles_ratio = 1008) ∧
      ((sound_init hw pref).variant = FMVariant.ym2413 →
        (sound_init hw pref).fm_cycles_ratio = 1080) ∧
      ((sound_init hw pref).has_read = true ↔
        ¬((sound_init hw pref).variant = FMVariant.ym2413)) ∧
      ((sound_init hw pref).psg_mode = PsgMode.discrete ↔ hw = HwClass.sg) := by
  intro hw pref
  cases hw <;> cases pref <;> exact (by decide)

theorem fm_update_count {σ π : Type} (C : Chip σ) (c : Nat) (s : SndState σ π) :
    (fm_update C c s).fm_cycles_count = s.fm_cycles_count +
      (if s.fm_cycles_count < c
        then (c - s.fm_cycles_count + s.fm_cycles_ratio - 1) / s.fm_cycles_ratio
        else 0) * s.fm_cycles_ratio := by
  unfold fm_update
  by_cases hc : s.fm_cycles_count < c
  · rw [if_pos hc, if_pos hc]
  · rw [if_neg hc, if_neg hc, Nat.zero_mul, Nat.add_zero]

theorem fm_update_inv {σ π : Type} (C : Chip σ) (c : Nat) (s : SndState σ π)
    (h : CounterInv s) : CounterInv (fm_update C c s) := by
  obtain ⟨hle, m, hm⟩ := h
  unfold CounterInv
  rw [fm_update_ratio, fm_update_start, fm_update_count]
  by_cases hc : s.fm_cycles_count < c
  · rw [if_pos hc]
    refine ⟨by omega, ?_⟩
    refine ⟨m + (c - s.fm_cycles_count + s.fm_cycles_ratio - 1) / s.fm_cycles_ratio, ?_⟩
    have h2 : s.fm_cycles_count +
        (c - s.fm_cycles_count + s.fm_cycles_ratio - 1) / s.fm_cycles_ratio *
          s.fm_cycles_ratio - s.fm_cycles_start =
        (s.fm_cycles_count - s.fm_cycles_start) +
        (c - s.fm_cycles_count + s.fm_cycles_ratio - 1) / s.fm_cycles_ratio *
          s.fm_cycles_ratio := by
      omega
    rw [h2, hm]
    ring
  · rw [if_neg hc, Nat.zero_mul, Nat.add_zero]
    exact ⟨hle, m, hm⟩

theorem fm_write_as_update {σ π : Type} (C : Chip σ) (c a d : Nat) (s : SndState σ π) :
    (fm_write C c a d s).fm_cycles_count = (fm_update C c s).fm_cycles_count ∧
    (fm_write C c a d s).fm_cycles_start = (fm_update C c s).fm_cycles_start ∧
    (fm_write C c a d s).fm_cycles_ratio = (fm_update C c s).fm_cycles_ratio :=
  ⟨rfl, rfl, rfl⟩

theorem fm_read_as_update {σ π : Type} (C : Chip σ) (c a : Nat) (s : SndState σ π) :
    (fm_read C c a s).2 = fm_update C c s := rfl

/-- `sound_update` always leaves both counters at the same value. -/
theorem sound_update_rebase {σ π : Type} (C : Chip σ) (P : Psg π) (hq : Bool)
    (preamp : Int) (cycles : Nat) (s : SndState σ π) :
    (sound_update C P hq preamp cycles s).2.fm_cycles_count =
      (sound_update C P hq preamp cycles s).2.fm_cycles_start := rfl

theorem sound_update_ratio {σ π : Type} (C : Chip σ) (P : Psg π) (hq : Bool)
    (preamp : Int) (cycles : Nat) (s : SndState σ π) :
    (sound_update C P hq preamp cycles s).2.fm_cycles_ratio = s.fm_cycles_ratio := by
  show (fm_update C cycles { s with psg := P.end_frame s.psg cycles }).fm_cycles_ratio =
    s.fm_cycles_ratio
  rw [fm_update_ratio]

theorem soundStep_inv {σ π : Type} (C : Chip σ) (P : Psg π) (s : SndState σ π)
    (op : SoundOp σ π) (h : CounterInv s) : CounterInv (soundStep C P s op) := by
  cases op with
  | fmUpd c => exact fm_update_inv C c s h
  | fmWr c a d =>
    show CounterInv (fm_write C c a d s)
    have h1 := fm_update_inv C c s h
    unfold CounterInv at h1 ⊢
    rw [(fm_write_as_update C c a d s).1, (fm_write_as_update C c a d s).2.1,
      (fm_write_as_update C c a d s).2.2]
    exact h1
  | fmRd c a =>
    show CounterInv (fm_read C c a s).2
    rw [fm_read_as_update]
    exact fm_update_inv C c s h
  | sndUpd hq p c =>
    show CounterInv (sound_update C P hq p c s).2
    refine ⟨?_, ?_⟩
    · rw [sound_update_rebase]
    · rw [sound_update_rebase, Nat.sub_self]
      exact dvd_zero _
  | ctxLoad ctx =>
    show CounterInv (sound_context_load ctx s)
    refine ⟨Nat.le_refl _, ?_⟩
    show (sound_context_load ctx s).fm_cycles_ratio ∣
      ctx.fm_cycles_start - ctx.fm_cycles_start
    rw [Nat.sub_self]
    exact dvd_zero _

/-- C6: starting from `sound_reset` and under every sequence of
`fm_update`, `fm_write`, `fm_read`, `sound_update` and
`sound_context_load` operations, `fm_cycles_count - fm_cycles_start` stays
a non-negative integer multiple of `fm_cycles_ratio` (the state satisfies
`CounterInv`: `fm_cycles_start ≤ fm_cycles_count` and the ratio divides
the difference). -/
theorem C6_counter_invariant {σ π : Type} (C : Chip σ) (P : Psg π) (s : SndState σ π)
    (ops : List (SoundOp σ π)) :
    CounterInv (soundRun C P ops (sound_reset C P s)) := by
  have hinit : CounterInv (sound_reset C P s) := by
    refine ⟨Nat.le_refl _, ?_⟩
    show (sound_reset C P s).fm_cycles_ratio ∣ 0 - 0
    rw [Nat.sub_self]
    exact Dvd.intro 0 rfl
  suffices haux : ∀ (l : List (SoundOp σ π)) (t : SndState σ π),
      CounterInv t → CounterInv (soundRun C P l t) from haux ops _ hinit
  intro l
  induction l with
  | nil => intro t h; exact h
  | cons op rest ih =>
    intro t h
    exact ih _ (soundStep_inv C P t op h)

theorem sound_update_start_eq {σ π : Type} (C : Chip σ) (P : Psg π) (hq : Bool)
    (preamp : Int) (cycles : Nat) (s : SndState σ π) (hr : 0 < s.fm_cycles_ratio) :
    (sound_update C P hq preamp cycles s).2.fm_cycles_start =
      s.fm_cycles_start +
        iters s.fm_cycles_ratio cycles s.fm_cycles_start * s.fm_cycles_ratio - cycles := by
  rw [sound_update_closed C P hq preamp cycles s hr]

/-- C7: whenever `sound_update(cycles)` is entered with
`fm_cycles_start < cycles`, the residual it stores into both counters lies
in `[0, ratio)`; entered with `fm_cycles_start ≥ cycles`, the do-while
still advances the timestamp one ratio step, and the stored residual
`fm_cycles_start + ratio - cycles` reaches or exceeds the ratio. -/
theorem C7_residual_bound {σ π : Type} (C : Chip σ) (P : Psg π) (hq : Bool)
    (preamp : Int) (cycles : Nat) (s : SndState σ π) (hr : 0 < s.fm_cycles_ratio) :
    (s.fm_cycles_start < cycles →
      (sound_update C P hq preamp cycles s).2.fm_cycles_start < s.fm_cycles_ratio ∧
      (sound_update C P hq preamp cycles s).2.fm_cycles_count < s.fm_cycles_ratio) ∧
    (cycles ≤ s.fm_cycles_start →
      (sound_update C P hq preamp cycles s).2.fm_cycles_start =
        s.fm_cycles_start + s.fm_cycles_ratio - cycles ∧
      s.fm_cycles_ratio ≤ (sound_update C P hq preamp cycles s).2.fm_cycles_start ∧
      (sound_update C P hq preamp cycles s).2.fm_cycles_count =
        (sound_update C P hq preamp cycles s).2.fm_cycles_start) := by
  have hstart := sound_update_start_eq C P hq preamp cycles s hr
  have hrebase := sound_update_rebase C P hq preamp cycles s
  constructor
  · intro hlt
    have hk : iters s.fm_cycles_ratio cycles s.fm_cycles_start =
        ceil_div (cycles - s.fm_cycles_start) s.fm_cycles_ratio := by
      unfold iters
      have h0 := ceil_div_pos hr (show 0 < cycles - s.fm_cycles_start by omega)
      omega
    have hk1 : 0 < ceil_div (cycles - s.fm_cycles_start) s.fm_cycles_ratio :=
      ceil_div_pos hr (by omega)
    have h1 := ceil_div_pred_mul_lt hr
      (show 0 < cycles - s.fm_cycles_start by omega)
    have h2 : ceil_div (cycles - s.fm_cycles_start) s.fm_cycles_ratio *
        s.fm_cycles_ratio =
        (ceil_div (cycles - s.fm_cycles_start) s.fm_cycles_ratio - 1) *
          s.fm_cycles_ratio + s.fm_cycles_ratio := by
      obtain ⟨q, hq'⟩ : ∃ q,
          ceil_div (cycles - s.fm_cycles_start) s.fm_cycles_ratio = q + 1 :=
        ⟨ceil_div (cycles - s.fm_cycles_start) s.fm_cycles_ratio - 1, by omega⟩
      rw [hq']
      simp [Nat.add_mul]
    rw [hstart] at *
    rw [hrebase, hstart]
    rw [hk]
    omega
  · intro hge
    have hk : iters s.fm_cycles_ratio cycles s.fm_cycles_start = 1 :=
      iters_base hr (by omega)
    rw [hrebase, hstart, hk, Nat.one_mul]
    omega

/-- C7 witness: from the all-zero 1008-ratio state, `sound_update(50000)`
stores the residual 400, which is below the ratio 1008. -/
theorem C7_witness :
    (sound_update constChip idPsg true 100 50000 mdResetState).2.fm_cycles_start < 1008 ∧
    (sound_update constChip idPsg true 100 50000 mdResetState).2.fm_cycles_count < 1008 := by
  have h := C7_residual_bound constChip idPsg true 100 50000 mdResetState (by decide)
  exact h.1 (by decide)

/-- C8: for the same input state, the band-limited mode
(`blip_add_delta`) and the linear mode (`blip_add_delta_fast`) of
`sound_update` compute identical sequences of timestamps and delta values
and leave identical states (carry and cycle counters included); the quality
flag determines only which resampler entry point each identical
delta/timestamp pair is submitted to. -/
theorem C8_modes_agree {σ π : Type} (C : Chip σ) (P : Psg π) (preamp : Int)
    (cycles : Nat) (s : SndState σ π) :
    (sound_update C P true preamp cycles s).2 =
      (sound_update C P false preamp cycles s).2 ∧
    (sound_update C P true preamp cycles s).1.map (fun d => (d.time, d.dl, d.dr)) =
      (sound_update C P false preamp cycles s).1.map (fun d => (d.time, d.dl, d.dr)) ∧
    (∀ d ∈ (sound_update C P true preamp cycles s).1, d.hq = true) ∧
    (∀ d ∈ (sound_update C P false preamp cycles s).1, d.hq = false) := by
  refine ⟨?_, ?_, ?_, ?_⟩
  · simp only [sound_update, eq_self_iff_true, if_true, Bool.false_eq_true, if_false,
      flushLQ_eq_retag]
  · simp only [sound_update, eq_self_iff_true, if_true, Bool.false_eq_true, if_false,
      flushLQ_eq_retag, List.map_map]
    refine List.map_congr_left ?_
    intro d _
    rfl
  · intro d hd
    simp only [sound_update, eq_self_iff_true, if_true] at hd
    exact flushHQ_tags _ _ _ _ _ _ _ _ _ d hd
  · intro d hd
    simp only [sound_update, Bool.false_eq_true, if_false, flushLQ_eq_retag] at hd
    obtain ⟨d', _, rfl⟩ := List.mem_map.mp hd
    rfl

/-- C10 (amended): the synchronization operations `fm_update`, `fm_write`
and `fm_read` never assign either cycle counter a smaller value
(`fm_cycles_count` only grows and `fm_cycles_start` is untouched); the
frame-boundary operation `sound_update`, however, rebases both counters to
the residual `time - cycles` — a value that can be smaller than what the
counters held, since the per-frame timeline restarts (the original claim's
inclusion of `sound_update` among never-decreasing operations fails). -/
theorem C10_counters_monotone {σ π : Type} (C : Chip σ) (P : Psg π) :
    (∀ (c : Nat) (s : SndState σ π),
      s.fm_cycles_count ≤ (fm_update C c s).fm_cycles_count ∧
      (fm_update C c s).fm_cycles_start = s.fm_cycles_start) ∧
    (∀ (c a d : Nat) (s : SndState σ π),
      s.fm_cycles_count ≤ (fm_write C c a d s).fm_cycles_count ∧
      (fm_write C c a d s).fm_cycles_start = s.fm_cycles_start) ∧
    (∀ (c a : Nat) (s : SndState σ π),
      s.fm_cycles_count ≤ (fm_read C c a s).2.fm_cycles_count ∧
      (fm_read C c a s).2.fm_cycles_start = s.fm_cycles_start) ∧
    (∀ (hq : Bool) (p : Int) (c : Nat) (s : SndState σ π),
      (sound_update C P hq p c s).2.fm_cycles_count =
        (sound_update C P hq p c s).2.fm_cycles_start) := by
  refine ⟨?_, ?_, ?_, ?_⟩
  · intro c s
    exact ⟨fm_update_count_le C c s, fm_update_start C c s⟩
  · intro c a d s
    rw [(fm_write_as_update C c a d s).1, (fm_write_as_update C c a d s).2.1]
    exact ⟨fm_update_count_le C c s, fm_update_start C c s⟩
  · intro c a s
    rw [fm_read_as_update]
    exact ⟨fm_update_count_le C c s, fm_update_start C c s⟩
  · intro hq p c s
    exact sound_update_rebase C P hq p c s

set_option maxRecDepth 8000 in
/-- C10 counterexample: after `fm_update(50000)` from the reset state the
counter holds 50400, yet `sound_update(50000)` then assigns it 400 — an
operation of the core assigns a counter a value smaller than its current
one, refuting the claim as stated. -/
theorem C10_counterexample :
    (fm_update constChip 50000 mdResetState).fm_cycles_count = 50400 ∧
    (sound_update constChip idPsg true 100 50000
        (fm_update constChip 50000 mdResetState)).2.fm_cycles_count = 400 ∧
    (400 : Nat) < 50400 := by
  decide

theorem writeAt_zero (buf vals : List Int) :
    writeAt buf 0 vals = vals ++ buf.drop vals.length := by
  unfold writeAt
  simp

theorem ampAt_append (preamp : Int) (v b : List Int) (idx : Nat) (h : idx < v.length) :
    ampAt preamp (v ++ b) idx = ampAt preamp v idx := by
  unfold ampAt
  rw [List.getD_append _ _ _ _ h]

/-- A flush element whose reads stay inside the common prefix `v` does not
depend on what lies beyond it. -/
theorem flushElem_congr_prefix (entry : Bool) (preamp : Int) (ratio : Nat)
    (v b₁ b₂ : List Int) (time : Nat) (pl pr : Int) (j : Nat)
    (hj : 2*j + 2 ≤ v.length) :
    flushElem entry preamp ratio (v ++ b₁) 0 time pl pr j =
      flushElem entry preamp ratio (v ++ b₂) 0 time pl pr j := by
  unfold flushElem
  congr 1
  · congr 1
    · rw [ampAt_append _ _ b₁ _ (by omega), ampAt_append _ _ b₂ _ (by omega)]
    · split_ifs with h0
      · rfl
      · rw [ampAt_append _ _ b₁ _ (by omega), ampAt_append _ _ b₂ _ (by omega)]
  · congr 1
    · rw [ampAt_append _ _ b₁ _ (by omega), ampAt_append _ _ b₂ _ (by omega)]
    · split_ifs with h0
      · rfl
      · rw [ampAt_append _ _ b₁ _ (by omega), ampAt_append _ _ b₂ _ (by omega)]

/-- Production form of `fm_update` when the target is ahead of the
counter. -/
theorem fm_update_prod {σ π : Type} (C : Chip σ) (cycles : Nat) (s : SndState σ π)
    (h : s.fm_cycles_count < cycles) :
    fm_update C cycles s =
      { s with
        chip := (C.update s.chip
          (ceil_div (cycles - s.fm_cycles_count) s.fm_cycles_ratio)).2
        fm_buffer := writeAt s.fm_buffer s.fm_ptr
          (C.update s.chip
            (ceil_div (cycles - s.fm_cycles_count) s.fm_cycles_ratio)).1
        fm_ptr := s.fm_ptr +
          2 * ceil_div (cycles - s.fm_cycles_count) s.fm_cycles_ratio
        fm_cycles_count := s.fm_cycles_count +
          ceil_div (cycles - s.fm_cycles_count) s.fm_cycles_ratio *
            s.fm_cycles_ratio } := by
  unfold fm_update
  rw [if_pos h]
  rfl

/-- One non-degenerate frame preserves the buffer-agnostic bisimulation:
two states equal everywhere except the (stale part of the) buffer produce
the same trace, and stay related, when the frame starts at an empty buffer
on a frame boundary and advances past the residual. -/
theorem sound_update_frame_step {σ π : Type} (C : Chip σ) (P : Psg π) (hq : Bool)
    (preamp : Int) (cycles : Nat) (s₁ s₂ : SndState σ π)
    (hlen : ∀ (st : σ) (n : Nat), (C.update st n).1.length = 2 * n)
    (hr : 0 < s₁.fm_cycles_ratio)
    (hee : ExtEq s₁ s₂)
    (hbd : s₁.fm_cycles_count = s₁.fm_cycles_start)
    (hp : s₁.fm_ptr = 0)
    (hcy : s₁.fm_cycles_start < cycles) :
    (sound_update C P hq preamp cycles s₁).1 = (sound_update C P hq preamp cycles s₂).1 ∧
    ExtEq (sound_update C P hq preamp cycles s₁).2 (sound_update C P hq preamp cycles s₂).2 := by
  obtain ⟨hchip, hpsg, hptr2, hl0, hl1, hrat, hst, hcnt⟩ := hee
  have hr₂ : 0 < s₂.fm_cycles_ratio := by rw [← hrat]; exact hr
  have hcond₁ : ({ s₁ with psg := P.end_frame s₁.psg cycles } :
      SndState σ π).fm_cycles_count < cycles := by
    show s₁.fm_cycles_count < cycles
    omega
  have hcond₂ : ({ s₂ with psg := P.end_frame s₂.psg cycles } :
      SndState σ π).fm_cycles_count < cycles := by
    show s₂.fm_cycles_count < cycles
    omega
  have hm₁ := fm_update_prod C cycles { s₁ with psg := P.end_frame s₁.psg cycles } hcond₁
  have hm₂ := fm_update_prod C cycles { s₂ with psg := P.end_frame s₂.psg cycles } hcond₂
  -- the owed-sample count is shared
  have hSeq : ceil_div (cycles - s₂.fm_cycles_count) s₂.fm_cycles_ratio =
      ceil_div (cycles - s₁.fm_cycles_count) s₁.fm_cycles_ratio := by
    rw [hrat, hcnt]
  -- buffers after production: common fresh prefix `v`
  have hbuf₁ : (fm_update C cycles { s₁ with psg := P.end_frame s₁.psg cycles }).fm_buffer =
      (C.update s₁.chip (ceil_div (cycles - s₁.fm_cycles_count) s₁.fm_cycles_ratio)).1 ++
        s₁.fm_buffer.drop
          (C.update s₁.chip
            (ceil_div (cycles - s₁.fm_cycles_count) s₁.fm_cycles_ratio)).1.length := by
    rw [hm₁]
    show writeAt s₁.fm_buffer s₁.fm_ptr _ = _
    rw [hp, writeAt_zero]
  have hbuf₂ : (fm_update C cycles { s₂ with psg := P.end_frame s₂.psg cycles }).fm_buffer =
      (C.update s₁.chip (ceil_div (cycles - s₁.fm_cycles_count) s₁.fm_cycles_ratio)).1 ++
        s₂.fm_buffer.drop
          (C.update s₁.chip
            (ceil_div (cycles - s₁.fm_cycles_count) s₁.fm_cycles_ratio)).1.length := by
    rw [hm₂]
    show writeAt s₂.fm_buffer s₂.fm_ptr _ = _
    rw [← hptr2, hp, writeAt_zero, hSeq, ← hchip]
  have hchip₁ : (fm_update C cycles { s₁ with psg := P.end_frame s₁.psg cycles }).chip =
      (C.update s₁.chip (ceil_div (cycles - s₁.fm_cycles_count) s₁.fm_cycles_ratio)).2 := by
    rw [hm₁]
  have hchip₂ : (fm_update C cycles { s₂ with psg := P.end_frame s₂.psg cycles }).chip =
      (C.update s₁.chip (ceil_div (cycles - s₁.fm_cycles_count) s₁.fm_cycles_ratio)).2 := by
    rw [hm₂]
    show (C.update s₂.chip (ceil_div (cycles - s₂.fm_cycles_count) s₂.fm_cycles_ratio)).2 = _
    rw [hSeq, ← hchip]
  have hpsg₁ : (fm_update C cycles { s₁ with psg := P.end_frame s₁.psg cycles }).psg =
      P.end_frame s₁.psg cycles := fm_update_psg _ _ _
  have hpsg₂ : (fm_update C cycles { s₂ with psg := P.end_frame s₂.psg cycles }).psg =
      P.end_frame s₁.psg cycles := by
    rw [fm_update_psg]
    show P.end_frame s₂.psg cycles = _
    rw [← hpsg]
  -- the iteration count equals the owed-sample count
  have hkiters : iters s₁.fm_cycles_ratio cycles s₁.fm_cycles_start =
      ceil_div (cycles - s₁.fm_cycles_count) s₁.fm_cycles_ratio := by
    unfold iters
    rw [hbd]
    have h0 := ceil_div_pos hr (show 0 < cycles - s₁.fm_cycles_start by omega)
    omega
  have hk2 : iters s₂.fm_cycles_ratio cycles s₂.fm_cycles_start =
      iters s₁.fm_cycles_ratio cycles s₁.fm_cycles_start := by
    rw [hrat, hst]
  have hvlen : (C.update s₁.chip
      (ceil_div (cycles - s₁.fm_cycles_count) s₁.fm_cycles_ratio)).1.length =
      2 * ceil_div (cycles - s₁.fm_cycles_count) s₁.fm_cycles_ratio := hlen _ _
  have hkpos := iters_pos s₁.fm_cycles_ratio cycles s₁.fm_cycles_start
  rw [sound_update_closed C P hq preamp cycles s₁ hr,
    sound_update_closed C P hq preamp cycles s₂ hr₂]
  constructor
  · -- identical traces
    simp only
    rw [hbuf₁, hbuf₂, hk2, ← hrat, ← hst, ← hl0, ← hl1]
    refine List.map_congr_left ?_
    intro j hj
    have hjlt : j < iters s₁.fm_cycles_ratio cycles s₁.fm_cycles_start :=
      List.mem_range.mp hj
    refine flushElem_congr_prefix hq preamp s₁.fm_cycles_ratio _ _ _
      s₁.fm_cycles_start s₁.fm_last0 s₁.fm_last1 j ?_
    rw [hvlen, hkiters] at *
    omega
  · -- related post-states
    refine ⟨?_, ?_, ?_, ?_, ?_, ?_, ?_, ?_⟩
    · show (fm_update C cycles { s₁ with psg := P.end_frame s₁.psg cycles }).chip = _
      rw [hchip₁, hchip₂]
    · show (fm_update C cycles { s₁ with psg := P.end_frame s₁.psg cycles }).psg = _
      rw [hpsg₁, hpsg₂]
    · rfl
    · show ampAt preamp _ _ = ampAt preamp _ _
      rw [hbuf₁, hbuf₂, hk2]
      rw [ampAt_append _ _ _ _ (by rw [hvlen, hkiters]; omega),
        ampAt_append _ _ _ _ (by rw [hvlen, hkiters]; omega)]
    · show ampAt preamp _ _ = ampAt preamp _ _
      rw [hbuf₁, hbuf₂, hk2]
      rw [ampAt_append _ _ _ _ (by rw [hvlen, hkiters]; omega),
        ampAt_append _ _ _ _ (by rw [hvlen, hkiters]; omega)]
    · show (fm_update C cycles { s₁ with psg := P.end_frame s₁.psg cycles }).fm_cycles_ratio = _
      rw [fm_update_ratio, fm_update_ratio]
      show s₁.fm_cycles_ratio = s₂.fm_cycles_ratio
      exact hrat
    · show s₁.fm_cycles_start + _ - cycles = s₂.fm_cycles_start + _ - cycles
      rw [hk2, ← hrat, ← hst]
    · show s₁.fm_cycles_start + _ - cycles = s₂.fm_cycles_start + _ - cycles
      rw [hk2, ← hrat, ← hst]

theorem runFrames_ExtEq {σ π : Type} (C : Chip σ) (P : Psg π) (hq : Bool) (preamp : Int)
    (hlen : ∀ (st : σ) (n : Nat), (C.update st n).1.length = 2 * n) :
    ∀ (frames : List Nat) (s₁ s₂ : SndState σ π),
      0 < s₁.fm_cycles_ratio →
      ExtEq s₁ s₂ →
      s₁.fm_cycles_count = s₁.fm_cycles_start →
      s₁.fm_ptr = 0 →
      NonDegen C P hq preamp frames s₁ →
      (runFrames C P hq preamp frames s₁).1 = (runFrames C P hq preamp frames s₂).1 := by
  intro frames
  induction frames with
  | nil => intro s₁ s₂ _ _ _ _ _; rfl
  | cons c cs ih =>
    intro s₁ s₂ hr hee hbd hp hnd
    obtain ⟨hcy, hnd'⟩ := hnd
    have hstep := sound_update_frame_step C P hq preamp c s₁ s₂ hlen hr hee hbd hp hcy
    have hr' : 0 < (sound_update C P hq preamp c s₁).2.fm_cycles_ratio := by
      rw [sound_update_ratio]; exact hr
    have hrec := ih (sound_update C P hq preamp c s₁).2 (sound_update C P hq preamp c s₂).2
      hr' hstep.2 (sound_update_rebase C P hq preamp c s₁) rfl hnd'
    show (sound_update C P hq preamp c s₁).1 ++ _ =
      (sound_update C P hq preamp c s₂).1 ++ _
    rw [hstep.1, hrec]

set_option maxRecDepth 8000 in
/-- C3 counterexample: the claim as stated fails because the carry state
`fm_last` is not persisted.  Run one 50000-cycle frame from reset (the
carry becomes 100), save, load into a freshly reset instance of the same
backend, and run the next 50000-cycle frame on both: the original submits
a first delta of 0 (`100 - 100`), the restored instance a first delta of
100 (`100 - 0`), so the subsequent outputs differ sample-for-sample. -/
theorem C3_counterexample :
    (sound_update constChip idPsg true 100 50000
        (sound_update constChip idPsg true 100 50000 mdResetState).2).1 ≠
      (sound_update constChip idPsg true 100 50000
        (sound_context_load
          (sound_context_save false
            (sound_update constChip idPsg true 100 50000 mdResetState).2)
          (sound_reset constChip idPsg mdResetState))).1 := by
  decide

/-- C3 (amended): `sound_context_save` captures, in the persisted order,
the backend discriminator, the backend state, the PSG state and
`fm_cycles_start`; `sound_context_load` restores exactly those fields onto
the target and finally sets `fm_cycles_count = fm_cycles_start`.  Loading
a save into a freshly constructed (reset) instance of the same backend
reproduces the original's subsequent `sound_update` outputs
sample-for-sample provided the save was taken at a frame boundary (buffer
empty, `fm_cycles_count = fm_cycles_start`) with zero carry state — the
carry is not persisted, hence the extra zero-carry condition — and each
subsequent frame advances past the stored residual. -/
theorem C3_roundtrip_amended {σ π : Type} (C : Chip σ) (P : Psg π) (hq : Bool)
    (preamp : Int) (cfg : Bool) (s t0 : SndState σ π) (frames : List Nat)
    (hlen : ∀ (st : σ) (n : Nat), (C.update st n).1.length = 2 * n)
    (hr : 0 < s.fm_cycles_ratio)
    (hrt : t0.fm_cycles_ratio = s.fm_cycles_ratio)
    (hbd : s.fm_cycles_count = s.fm_cycles_start)
    (hp : s.fm_ptr = 0)
    (hc0 : s.fm_last0 = 0) (hc1 : s.fm_last1 = 0)
    (hnd : NonDegen C P hq preamp frames s) :
    sound_context_load (sound_context_save cfg s) (sound_reset C P t0) =
      { sound_reset C P t0 with
        chip := s.chip
        psg := s.psg
        fm_cycles_start := s.fm_cycles_start
        fm_cycles_count := s.fm_cycles_start } ∧
    (runFrames C P hq preamp frames s).1 =
      (runFrames C P hq preamp frames
        (sound_context_load (sound_context_save cfg s) (sound_reset C P t0))).1 := by
  refine ⟨rfl, ?_⟩
  refine runFrames_ExtEq C P hq preamp hlen frames s _ hr ?_ hbd hp hnd
  refine ⟨rfl, rfl, ?_, ?_, ?_, ?_, ?_, ?_⟩
  · exact hp
  · exact hc0
  · exact hc1
  · show s.fm_cycles_ratio = t0.fm_cycles_ratio
    rw [hrt]
  · rfl
  · exact hbd

set_option maxRecDepth 8000 in
/-- C3 witness: two 50000/30000-cycle frames from the reset state (zero
carry) produce identical traces before and after a save/load into a fresh
instance. -/
theorem C3_witness :
    (runFrames constChip idPsg true 100 [50000, 30000] mdResetState).1 =
      (runFrames constChip idPsg true 100 [50000, 30000]
        (sound_context_load (sound_context_save false mdResetState)
          (sound_reset constChip idPsg mdResetState))).1 := by
  have h := C3_roundtrip_amended constChip idPsg true 100 false mdResetState mdResetState
    [50000, 30000]
    (fun st n => by simp [constChip])
    (by decide) (by decide) (by decide) (by decide) (by decide) (by decide)
    ⟨by decide, by decide, trivial⟩
  exact h.2

/-- C4 counterexample: the claim that an empty buffer means "no delta is
submitted and the carry is unchanged" fails: in a frame-boundary state with
an empty buffer but stale data `7, 9` at the buffer start and zero carry,
`sound_update(400)` still runs the do-while once, submits one delta
(computed from the stale pair), and overwrites the carry with 7. -/
theorem C4_counterexample :
    staleState.fm_ptr = 0 ∧
    (400 : Nat) ≤ staleState.fm_cycles_count ∧
    (sound_update constChip idPsg true 100 400 staleState).1 ≠ [] ∧
    (sound_update constChip idPsg true 100 400 staleState).2.fm_last0 ≠
      staleState.fm_last0 := by
  decide

/-- C4 (amended): if the FM sample buffer is empty when `sound_update` is
called and the frame target does not exceed produced-through (so `fm_update`
owes nothing; in such reachable states `fm_cycles_count = fm_cycles_start`),
the do-while still executes exactly one iteration: it reads the (stale)
pair at the buffer start, submits one delta against the carry, replaces
the carry with that pair's amplified values, and performs the bookkeeping —
buffer pointer rewound, both counters set to
`fm_cycles_start + ratio - cycles`. -/
theorem C4_empty_buffer {σ π : Type} (C : Chip σ) (P : Psg π) (hq : Bool)
    (preamp : Int) (cycles : Nat) (s : SndState σ π)
    (hr : 0 < s.fm_cycles_ratio)
    (hp : s.fm_ptr = 0)
    (hc : cycles ≤ s.fm_cycles_count)
    (he : s.fm_cycles_count = s.fm_cycles_start) :
    (sound_update C P hq preamp cycles s).1 =
      [⟨hq, s.fm_cycles_start,
        ampAt preamp s.fm_buffer 0 - s.fm_last0,
        ampAt preamp s.fm_buffer 1 - s.fm_last1⟩] ∧
    (sound_update C P hq preamp cycles s).2.fm_last0 = ampAt preamp s.fm_buffer 0 ∧
    (sound_update C P hq preamp cycles s).2.fm_last1 = ampAt preamp s.fm_buffer 1 ∧
    (sound_update C P hq preamp cycles s).2.fm_ptr = 0 ∧
    (sound_update C P hq preamp cycles s).2.fm_buffer = s.fm_buffer ∧
    (sound_update C P hq preamp cycles s).2.fm_cycles_count =
      s.fm_cycles_start + s.fm_cycles_ratio - cycles ∧
    (sound_update C P hq preamp cycles s).2.fm_cycles_start =
      s.fm_cycles_start + s.fm_cycles_ratio - cycles := by
  have hc' : cycles ≤ s.fm_cycles_start := he ▸ hc
  have hk : iters s.fm_cycles_ratio cycles s.fm_cycles_start = 1 :=
    iters_base hr (by omega)
  have hnoop : fm_update C cycles { s with psg := P.end_frame s.psg cycles } =
      { s with psg := P.end_frame s.psg cycles } := by
    unfold fm_update
    rw [if_neg (Nat.not_lt.mpr hc)]
  have hbuf : (fm_update C cycles
      { s with psg := P.end_frame s.psg cycles }).fm_buffer = s.fm_buffer := by
    rw [hnoop]
  rw [sound_update_closed C P hq preamp cycles s hr, hbuf, hk]
  refine ⟨?_, ?_, ?_, rfl, rfl, ?_, ?_⟩
  · simp [flushElem, List.range_succ]
  · show ampAt preamp s.fm_buffer (2 * (1 - 1)) = _
    norm_num
  · show ampAt preamp s.fm_buffer (2 * (1 - 1) + 1) = _
    norm_num
  · show s.fm_cycles_start + 1 * s.fm_cycles_ratio - cycles = _
    rw [Nat.one_mul]
  · show s.fm_cycles_start + 1 * s.fm_cycles_ratio - cycles = _
    rw [Nat.one_mul]

/-- C4 witness: in the stale-buffer frame-boundary state, `sound_update(400)`
submits exactly the one delta `(7, 9)` at timestamp 500 and stores the
residual `500 + 1008 - 400 = 1108`. -/
theorem C4_witness :
    (sound_update constChip idPsg true 100 400 staleState).1 =
      [⟨true, 500, 7, 9⟩] ∧
    (sound_update constChip idPsg true 100 400 staleState).2.fm_cycles_count = 1108 := by
  have h := C4_empty_buffer constChip idPsg true 100 400 staleState
    (by decide) (by decide) (by decide) (by decide)
  exact ⟨h.1.trans (by decide), h.2.2.2.2.2.1.trans (by decide)⟩
